import Mathlib

/-!
Verification of the `Dialogs::IndexedList` structure from
`src/Telegram/SourceFiles/dialogs/dialogs_indexed_list.h`.

The header declares the class: an unfiltered ordered list `_list`, a letter
index `_index : flat_map<QChar, List>` of per-first-letter buckets, an
optional type-filtered view `_pFiltered : unique_ptr<List>` and the recorded
type predicate `_filterTypes` (defaulted to `EntryType::All` in the header).
The inline accessors (`all`, `unfilteredAll`, `filtered(QChar)`, `size`,
`empty`, `contains`, `getRow`, `getFilterTypes`) are translated from the
header directly.  The out-of-line member functions (`addToEnd`, `addByName`,
`peerNameChanged`, `del`, `movePinned`, `moveToTop`, `adjustByDate`,
`setFilterTypes`, `performFilter`, `clear`, `current`) live in
`dialogs_indexed_list.cpp`, which is not part of the visible sources; they
are modelled from the specification and carry a `Modelled from the spec:`
doc comment.

Modelling decisions:
* `Key` is a natural number (opaque, unique, comparable identity).
* A `QChar` first letter is a natural number (`Letter`).
* The display name's collation key is a natural number `nameRank`
  (the comparator is an external, caller-supplied total order).
* A `Row` carries no data beyond its `Key` relevant to the claims, so the
  ordered lists are `List Key`.
* The externally owned entry registry (display-name first letters, pin flag,
  activity date, entry type) is carried in the state as an association list
  `info`; add/rename operations record the entry data the external provider
  would return at that moment.
* `List::del` removes the (unique, map-backed) row of a key; removal is
  modelled as `List.filter`, which coincides with single-row erasure on the
  duplicate-free lists the structure maintains and is total on all states.
-/

namespace Dialogs

abbrev Key := Nat

abbrev Letter := Nat

/-- Number of distinct entry types of the `EntryTypes` bitmask. -/
abbrev typeCount : Nat := 4

/-- The `EntryType::All` bitmask: every type bit set. -/
def allTypes : Nat := 2 ^ typeCount - 1

inductive SortMode where
  | Date : SortMode
  | Name : SortMode
deriving DecidableEq

/-- Data the external entry provider supplies for a key: the first letters
of the tokens of the current display name (as `chatsListNameFirstLetters`
returns them), the collation rank of the name, the pin flag, the activity
date, and the entry type tag used by `EntryTypes` filtering. -/
structure EntryInfo where
  letters : List Letter
  nameRank : Nat
  pinned : Bool
  date : Nat
  etype : Fin typeCount
deriving DecidableEq

/-- Lookup in the letter index association list (`base::flat_map` view:
at most one binding per letter is visible). -/
def lookupB : List (Letter × List Key) → Letter → Option (List Key)
  | [], _ => none
  | (c, b) :: rest, ch => if c = ch then some b else lookupB rest ch

/-- Lookup in the entry registry association list. -/
def lookupE : List (Key × EntryInfo) → Key → Option EntryInfo
  | [], _ => none
  | (a, e) :: rest, k => if a = k then some e else lookupE rest k

/-- First letters of the current display name of `k` per the registry. -/
def lettersOfI (info : List (Key × EntryInfo)) (k : Key) : List Letter :=
  match lookupE info k with
  | some e => e.letters
  | none => []

/-- Pin flag of `k` per the registry. -/
def pinnedOfI (info : List (Key × EntryInfo)) (k : Key) : Bool :=
  match lookupE info k with
  | some e => e.pinned
  | none => false

/-- Pinned entries sort before all non-pinned ones: rank 0 versus rank 1. -/
def rankOf (info : List (Key × EntryInfo)) (k : Key) : Nat :=
  if pinnedOfI info k then 0 else 1

/-- Collation rank of the display name of `k` per the registry. -/
def nameRankOf (info : List (Key × EntryInfo)) (k : Key) : Nat :=
  match lookupE info k with
  | some e => e.nameRank
  | none => 0

/-- Activity date of `k` per the registry. -/
def dateOfI (info : List (Key × EntryInfo)) (k : Key) : Nat :=
  match lookupE info k with
  | some e => e.date
  | none => 0

/-- Lexicographic comparison of (pinned rank, name rank, key) triples. -/
def tripleLE (a b : Nat × Nat × Nat) : Bool :=
  decide (a.1 < b.1 ∨ (a.1 = b.1 ∧ (a.2.1 < b.2.1 ∨ (a.2.1 = b.2.1 ∧ a.2.2 ≤ b.2.2))))

/-- ByName total order on keys: pinned first, then collation rank of the
name ascending, tie-broken by key identity. -/
def nameLE (info : List (Key × EntryInfo)) (a b : Key) : Bool :=
  tripleLE (rankOf info a, nameRankOf info a, a) (rankOf info b, nameRankOf info b, b)

/-- ByDate total order on keys: most recent activity first, tie-broken by
key identity. -/
def dateLE (info : List (Key × EntryInfo)) (a b : Key) : Bool :=
  decide (dateOfI info b < dateOfI info a ∨ (dateOfI info a = dateOfI info b ∧ a ≤ b))

/-- Order-preserving insert of a key into an ordered list. -/
def insertSorted (le : Key → Key → Bool) (k : Key) : List Key → List Key
  | [] => [k]
  | a :: rest => if le k a then k :: a :: rest else a :: insertSorted le k rest

/-- `List::del` for one key: the map-backed `List` holds at most one row per
key, so removing that row is removing every occurrence. -/
def listRemove (l : List Key) (k : Key) : List Key :=
  l.filter (fun x => decide (x ≠ k))

/-- `List::addToEnd`: append the key's row unless it is already present
(the `_rowByKey` map makes insertion of a present key a no-op). -/
def listAddToEnd (l : List Key) (k : Key) : List Key :=
  if k ∈ l then l else l ++ [k]

/-- `List::addByName`: insert the key's row at its name-sorted position
unless it is already present. -/
def listAddByName (info : List (Key × EntryInfo)) (l : List Key) (k : Key) : List Key :=
  if k ∈ l then l else insertSorted (nameLE info) k l

/-- `List::adjustByName`: repositions the existing row of `k` at its
name-sorted position; no-op when the key is absent. -/
def bucketReposition (info : List (Key × EntryInfo)) (l : List Key) (k : Key) : List Key :=
  if k ∈ l then insertSorted (nameLE info) k (listRemove l k) else l

/-- Apply `f` to the bucket of letter `ch`, creating the bucket first when
missing (the `_index.emplace(ch, _sortMode)` path). -/
def updateBucket : List (Letter × List Key) → Letter → (List Key → List Key) →
    List (Letter × List Key)
  | [], ch, f => [(ch, f [])]
  | (c, b) :: rest, ch, f =>
    if c = ch then (c, f b) :: rest else (c, b) :: updateBucket rest ch f

/-- Apply `f` to the bucket of letter `ch` when it exists; buckets are never
created by this path (the `if (it != _index.cend())` guards). -/
def modifyBucket : List (Letter × List Key) → Letter → (List Key → List Key) →
    List (Letter × List Key)
  | [], _, _ => []
  | (c, b) :: rest, ch, f =>
    if c = ch then (c, f b) :: rest else (c, b) :: modifyBucket rest ch f

/-- Run a bucket insertion for every letter of `ls`, creating buckets. -/
def bucketsIns (ins : List Key → List Key) : List Letter → List (Letter × List Key) →
    List (Letter × List Key)
  | [], idx => idx
  | ch :: ls, idx => bucketsIns ins ls (updateBucket idx ch ins)

/-- Run a bucket modification for every letter of `ls`, on existing buckets
only. -/
def bucketsMod (f : List Key → List Key) : List Letter → List (Letter × List Key) →
    List (Letter × List Key)
  | [], idx => idx
  | ch :: ls, idx => bucketsMod f ls (modifyBucket idx ch f)

/-- Swap the row of `k` with its immediate successor when both rows are
pinned; otherwise leave the list unchanged (precondition violations of
`movePinned` must not corrupt the structure). -/
def swapForward (pin : Key → Bool) (k : Key) : List Key → List Key
  | [] => []
  | [a] => [a]
  | a :: b :: rest =>
    if a = k then
      if pin a && pin b then b :: a :: rest else a :: b :: rest
    else a :: swapForward pin k (b :: rest)

/-- Swap the row of `k` with its immediate predecessor when both rows are
pinned; otherwise leave the list unchanged. -/
def swapBack (pin : Key → Bool) (k : Key) : List Key → List Key
  | [] => []
  | [a] => [a]
  | a :: b :: rest =>
    if b = k then
      if pin a && pin b then b :: a :: rest else a :: b :: rest
    else a :: swapBack pin k (b :: rest)

/-- The state of a `Dialogs::IndexedList`: sort mode, unfiltered list
`_list`, letter index `_index`, optional type-filtered view `_pFiltered`,
recorded type predicate `_filterTypes`, plus the external entry registry
the structure reads entry data from. -/
structure IndexedList where
  sortMode : SortMode
  list : List Key
  index : List (Letter × List Key)
  pFiltered : Option (List Key)
  filterTypes : Nat
  info : List (Key × EntryInfo)
deriving DecidableEq

namespace IndexedList

/-- A freshly constructed `IndexedList(sortMode)`: the header member
initializers give an empty `_list`, an empty `_index`, a null `_pFiltered`
and `_filterTypes = EntryType::All`. -/
def init (m : SortMode) : IndexedList :=
  { sortMode := m, list := [], index := [], pFiltered := none,
    filterTypes := allTypes, info := [] }

/-- Modelled from the spec: `current()` (body in the missing
`dialogs_indexed_list.cpp`) resolves the current view: the type-filtered
view if one is active (non-null `_pFiltered`), else the unfiltered list. -/
def current (s : IndexedList) : List Key :=
  s.pFiltered.getD s.list

/-- `all()` returns `current()` (header, lines 43-45). -/
def all (s : IndexedList) : List Key :=
  s.current

/-- `unfilteredAll()` returns `_list` (header, lines 46-48). -/
def unfilteredAll (s : IndexedList) : List Key :=
  s.list

/-- `filtered(QChar)` returns the bucket found in `_index`, or null
(header, lines 50-53). -/
def filtered (s : IndexedList) (ch : Letter) : Option (List Key) :=
  lookupB s.index ch

/-- Letters of `k`'s current display name, as the structure reads them. -/
def lettersOf (s : IndexedList) (k : Key) : List Letter :=
  lettersOfI s.info k

/-- The bucket of letter `ch` as a list (empty when no bucket exists). -/
def bucketOf (s : IndexedList) (ch : Letter) : List Key :=
  (lookupB s.index ch).getD []

/-- `size()` is `all().size()` (header, line 61). -/
def size (s : IndexedList) : Nat :=
  s.all.length

/-- `empty()` is `all().empty()` (header, line 62). -/
def empty (s : IndexedList) : Bool :=
  s.all.isEmpty

/-- `contains(key)` is `all().contains(key)` (header, line 63). -/
def contains (s : IndexedList) (k : Key) : Bool :=
  decide (k ∈ s.all)

/-- `getRow(key)` is `all().getRow(key)` (header, line 64): the row of the
key in the current view, or null. -/
def getRow (s : IndexedList) (k : Key) : Option Key :=
  if k ∈ s.all then some k else none

/-- `getFilterTypes()` returns `_filterTypes` (header, line 82). -/
def getFilterTypes (s : IndexedList) : Nat :=
  s.filterTypes

/-- Modelled from the spec: `isFilteredByType()` (body in the missing
`.cpp`) is true iff the recorded predicate excludes at least one entry
type. -/
def isFilteredByType (s : IndexedList) : Bool :=
  (List.range typeCount).any (fun t => !(s.filterTypes.testBit t))

/-- Whether the row of `k` satisfies the recorded type predicate: its entry
type's bit is set in `_filterTypes`. -/
def rowMatches (s : IndexedList) (k : Key) : Bool :=
  match lookupE s.info k with
  | some e => s.filterTypes.testBit e.etype.val
  | none => true

/-- Modelled from the spec: `addToEnd(key)` (body in the missing `.cpp`)
appends the key to the unfiltered list's tail and into every applicable
letter bucket (created on demand); inserting an already-present key is a
no-op (detect-and-skip).  `e` is the entry data the external provider
supplies for `key` at this moment. -/
def addToEnd (s : IndexedList) (k : Key) (e : EntryInfo) : IndexedList :=
  if k ∈ s.list then s
  else
    { s with
      list := s.list ++ [k],
      index := bucketsIns (fun b => listAddToEnd b k) e.letters s.index,
      info := (k, e) :: s.info }

/-- Modelled from the spec: `addByName(key)` (body in the missing `.cpp`)
inserts the key at its name-sorted position (pinned entries before all
non-pinned) in the unfiltered list and in every applicable letter bucket;
inserting an already-present key is a no-op. -/
def addByName (s : IndexedList) (k : Key) (e : EntryInfo) : IndexedList :=
  if k ∈ s.list then s
  else
    { s with
      list := insertSorted (nameLE ((k, e) :: s.info)) k s.list,
      index := bucketsIns (fun b => listAddByName ((k, e) :: s.info) b k) e.letters s.index,
      info := (k, e) :: s.info }

/-- Modelled from the spec: `peerNameChanged(peer, oldChars)` (body in the
missing `.cpp`) records the renamed entry data, then — when the key is
present — removes its row from buckets of `oldChars` letters no longer in
the new name, inserts it into buckets of new letters not in `oldChars`,
repositions it inside buckets of letters present before and after, and
under ByName mode repositions it in the unfiltered list.  When the key is
absent only the external registry changes. -/
def peerNameChanged (s : IndexedList) (k : Key) (oldChars : List Letter)
    (e : EntryInfo) : IndexedList :=
  if k ∈ s.list then
    { s with
      list :=
        if s.sortMode = SortMode.Name then
          insertSorted (nameLE ((k, e) :: s.info)) k (listRemove s.list k)
        else s.list,
      index :=
        bucketsIns (fun b => listAddByName ((k, e) :: s.info) b k)
          (e.letters.filter (fun ch => decide (ch ∉ oldChars)))
          (bucketsMod (fun b => listRemove b k)
            (oldChars.filter (fun ch => decide (ch ∉ e.letters)))
            (bucketsMod (fun b => bucketReposition ((k, e) :: s.info) b k)
              (e.letters.filter (fun ch => decide (ch ∈ oldChars))) s.index)),
      info := (k, e) :: s.info }
  else { s with info := (k, e) :: s.info }

/-- Modelled from the spec: `del(key)` (body in the missing `.cpp`) removes
the key's row from the unfiltered list, from the buckets of its current
first letters, and from the active type-filtered view; deleting an absent
key is a no-op.  The `replacedBy` argument is opaque caller context and is
not acted on. -/
def del (s : IndexedList) (k : Key) : IndexedList :=
  if k ∈ s.list then
    { s with
      list := listRemove s.list k,
      index := bucketsMod (fun b => listRemove b k) (s.lettersOf k) s.index,
      pFiltered := s.pFiltered.map (fun f => listRemove f k) }
  else s

/-- Modelled from the spec: `movePinned(row, deltaSign)` (body in the
missing `.cpp`) swaps the row with its immediate neighbor within the pinned
prefix of the unfiltered list; `deltaSign ∈ {-1, +1}`.  Calls that violate
the precondition (row absent, neighbor not pinned, other delta) leave the
structure unchanged rather than corrupt it. -/
def movePinned (s : IndexedList) (k : Key) (deltaSign : Int) : IndexedList :=
  if deltaSign = 1 then
    { s with list := swapForward (fun x => pinnedOfI s.info x) k s.list }
  else if deltaSign = -1 then
    { s with list := swapBack (fun x => pinnedOfI s.info x) k s.list }
  else s

/-- Modelled from the spec: `moveToTop(key)` (body in the missing `.cpp`)
forces a present key to the front of the unfiltered list. -/
def moveToTop (s : IndexedList) (k : Key) : IndexedList :=
  if k ∈ s.list then { s with list := k :: listRemove s.list k } else s

/-- Modelled from the spec: `adjustByDate(links)` (body in the missing
`.cpp`) re-sorts the unfiltered ByDate position of an existing key after
its activity timestamp changed, without touching its letter-bucket rows. -/
def adjustByDate (s : IndexedList) (k : Key) : IndexedList :=
  if k ∈ s.list then
    { s with list := insertSorted (dateLE s.info) k (listRemove s.list k) }
  else s

/-- Modelled from the spec: `setFilterTypes(types)` (body in the missing
`.cpp`) records the desired predicate without rebuilding anything. -/
def setFilterTypes (s : IndexedList) (t : Nat) : IndexedList :=
  { s with filterTypes := t }

/-- Modelled from the spec: `performFilter()` (body in the missing `.cpp`)
rebuilds the type-filtered view by scanning the unfiltered list and
retaining the rows matching the recorded predicate; when the predicate
excludes nothing the view is dropped and the current view returns to the
unfiltered list (spec state machine, "clear filter"). -/
def performFilter (s : IndexedList) : IndexedList :=
  if s.isFilteredByType then
    { s with pFiltered := some (s.list.filter (fun k => s.rowMatches k)) }
  else { s with pFiltered := none }

/-- Modelled from the spec: `clear()` (body in the missing `.cpp`) empties
every view and leaves the structure reusable. -/
def clear (s : IndexedList) : IndexedList :=
  { s with list := [], index := [], pFiltered := none }

end IndexedList

/-- One operation of the public mutating interface.  Add and rename
operations carry the entry data the external provider supplies for the key
at that moment. -/
inductive Op where
  | addToEnd (k : Key) (e : EntryInfo) : Op
  | addByName (k : Key) (e : EntryInfo) : Op
  | peerNameChanged (k : Key) (oldChars : List Letter) (e : EntryInfo) : Op
  | del (k : Key) : Op
  | movePinned (k : Key) (deltaSign : Int) : Op
  | moveToTop (k : Key) : Op
  | adjustByDate (k : Key) : Op
  | setFilterTypes (t : Nat) : Op
  | performFilter : Op
  | clear : Op
deriving DecidableEq

/-- Apply one operation to the structure. -/
def applyOp (s : IndexedList) : Op → IndexedList
  | Op.addToEnd k e => s.addToEnd k e
  | Op.addByName k e => s.addByName k e
  | Op.peerNameChanged k oldChars e => s.peerNameChanged k oldChars e
  | Op.del k => s.del k
  | Op.movePinned k d => s.movePinned k d
  | Op.moveToTop k => s.moveToTop k
  | Op.adjustByDate k => s.adjustByDate k
  | Op.setFilterTypes t => s.setFilterTypes t
  | Op.performFilter => s.performFilter
  | Op.clear => s.clear

/-- Run a sequence of operations. -/
def run (s : IndexedList) : List Op → IndexedList
  | [] => s
  | o :: os => run (applyOp s o) os

/-- An operation is well-formed in a state when the hints it passes are
accurate: a rename of a present key must pass as `oldChars` exactly the
first letters the name had before the change (the contract of the
`oldChars` parameter of `peerNameChanged`). -/
def wfOp (s : IndexedList) : Op → Bool
  | Op.peerNameChanged k oldChars _ =>
    !(decide (k ∈ s.list)) ||
      decide ((∀ ch ∈ oldChars, ch ∈ s.lettersOf k) ∧ (∀ ch ∈ s.lettersOf k, ch ∈ oldChars))
  | _ => true

/-- A trace is well-formed when every operation is well-formed in the state
it is applied to. -/
def wfTrace (s : IndexedList) : List Op → Bool
  | [] => true
  | o :: os => wfOp s o && wfTrace (applyOp s o) os

/-- Operations meaningful for a ByName-mode list in claim C6: name-sorted
insertion, deletion, and pinned moves. -/
def byNameOp : Op → Bool
  | Op.addByName _ _ => true
  | Op.del _ => true
  | Op.movePinned _ _ => true
  | _ => false

/-! ### List-level lemmas -/

theorem mem_listRemove {l : List Key} {k x : Key} :
    x ∈ listRemove l k ↔ x ∈ l ∧ x ≠ k := by
  simp [listRemove, List.mem_filter]

theorem not_mem_listRemove (l : List Key) (k : Key) : k ∉ listRemove l k := by
  simp [mem_listRemove]

theorem nodup_listRemove {l : List Key} (h : l.Nodup) (k : Key) :
    (listRemove l k).Nodup :=
  h.filter _

theorem listRemove_nil (k : Key) : listRemove [] k = [] := rfl

theorem perm_insertSorted (le : Key → Key → Bool) (k : Key) :
    ∀ l : List Key, (insertSorted le k l).Perm (k :: l)
  | [] => by simp [insertSorted]
  | a :: rest => by
    by_cases h : le k a = true
    · simp [insertSorted, h]
    · simp only [insertSorted, h, if_false]
      exact ((perm_insertSorted le k rest).cons a).trans (List.Perm.swap k a rest)

theorem mem_insertSorted {le : Key → Key → Bool} {k x : Key} {l : List Key} :
    x ∈ insertSorted le k l ↔ x = k ∨ x ∈ l := by
  rw [(perm_insertSorted le k l).mem_iff]
  simp

theorem nodup_insertSorted {le : Key → Key → Bool} {k : Key} {l : List Key}
    (hk : k ∉ l) (h : l.Nodup) : (insertSorted le k l).Nodup := by
  rw [(perm_insertSorted le k l).nodup_iff]
  exact List.Nodup.cons hk h

theorem mem_listAddToEnd {l : List Key} {k x : Key} :
    x ∈ listAddToEnd l k ↔ x = k ∨ x ∈ l := by
  unfold listAddToEnd
  split
  · constructor
    · exact Or.inr
    · rintro (rfl | hx) <;> assumption
  · simp [or_comm]

theorem nodup_listAddToEnd {l : List Key} (h : l.Nodup) (k : Key) :
    (listAddToEnd l k).Nodup := by
  unfold listAddToEnd
  split
  · exact h
  · rw [(List.perm_append_singleton k l).nodup_iff]
    exact List.Nodup.cons (by assumption) h

theorem mem_listAddByName {info : List (Key × EntryInfo)} {l : List Key} {k x : Key} :
    x ∈ listAddByName info l k ↔ x = k ∨ x ∈ l := by
  unfold listAddByName
  split
  · constructor
    · exact Or.inr
    · rintro (rfl | hx) <;> assumption
  · exact mem_insertSorted

theorem nodup_listAddByName {info : List (Key × EntryInfo)} {l : List Key}
    (h : l.Nodup) (k : Key) : (listAddByName info l k).Nodup := by
  unfold listAddByName
  split
  · exact h
  · exact nodup_insertSorted (by assumption) h

theorem mem_bucketReposition {info : List (Key × EntryInfo)} {l : List Key} {k x : Key} :
    x ∈ bucketReposition info l k ↔ x ∈ l := by
  unfold bucketReposition
  split
  · rw [mem_insertSorted, mem_listRemove]
    constructor
    · rintro (rfl | ⟨hx, _⟩)
      · assumption
      · exact hx
    · intro hx
      by_cases hxk : x = k
      · exact Or.inl hxk
      · exact Or.inr ⟨hx, hxk⟩
  · exact Iff.rfl

theorem nodup_bucketReposition {info : List (Key × EntryInfo)} {l : List Key}
    (h : l.Nodup) (k : Key) : (bucketReposition info l k).Nodup := by
  unfold bucketReposition
  split
  · exact nodup_insertSorted (not_mem_listRemove l k) (nodup_listRemove h k)
  · exact h

theorem bucketReposition_nil (info : List (Key × EntryInfo)) (k : Key) :
    bucketReposition info [] k = [] := rfl

theorem perm_swapForward (pin : Key → Bool) (k : Key) :
    ∀ l : List Key, (swapForward pin k l).Perm l
  | [] => .refl _
  | [a] => .refl _
  | a :: b :: rest => by
    by_cases h : a = k
    · simp only [swapForward, h, if_true]
      split
      · exact List.Perm.swap _ _ _
      · exact .refl _
    · simp only [swapForward, h, if_false]
      exact (perm_swapForward pin k (b :: rest)).cons a

theorem perm_swapBack (pin : Key → Bool) (k : Key) :
    ∀ l : List Key, (swapBack pin k l).Perm l
  | [] => .refl _
  | [a] => .refl _
  | a :: b :: rest => by
    by_cases h : b = k
    · simp only [swapBack, h, if_true]
      split
      · exact List.Perm.swap _ _ _
      · exact .refl _
    · simp only [swapBack, h, if_false]
      exact (perm_swapBack pin k (b :: rest)).cons a

/-! ### Registry lemmas -/

theorem lettersOfI_cons_self (info : List (Key × EntryInfo)) (k : Key) (e : EntryInfo) :
    lettersOfI ((k, e) :: info) k = e.letters := by
  simp [lettersOfI, lookupE]

theorem lettersOfI_cons_ne (info : List (Key × EntryInfo)) {k k' : Key} (e : EntryInfo)
    (h : k' ≠ k) : lettersOfI ((k, e) :: info) k' = lettersOfI info k' := by
  simp [lettersOfI, lookupE, (Ne.symm h : k ≠ k')]

theorem pinnedOfI_cons_ne (info : List (Key × EntryInfo)) {k k' : Key} (e : EntryInfo)
    (h : k' ≠ k) : pinnedOfI ((k, e) :: info) k' = pinnedOfI info k' := by
  simp [pinnedOfI, lookupE, (Ne.symm h : k ≠ k')]

/-! ### Letter-index lemmas -/

/-- The bucket of `ch` in a raw index value. -/
def bucketOfI (idx : List (Letter × List Key)) (ch : Letter) : List Key :=
  (lookupB idx ch).getD []

theorem bucketOf_eq (s : IndexedList) (ch : Letter) :
    s.bucketOf ch = bucketOfI s.index ch := rfl

theorem lookupB_updateBucket (idx : List (Letter × List Key)) (ch ch' : Letter)
    (f : List Key → List Key) :
    lookupB (updateBucket idx ch f) ch' =
      if ch' = ch then some (f (bucketOfI idx ch)) else lookupB idx ch' := by
  induction idx with
  | nil =>
    by_cases h : ch' = ch
    · subst h
      simp [updateBucket, lookupB, bucketOfI]
    · simp [updateBucket, lookupB, bucketOfI, h, Ne.symm h]
  | cons p rest ih =>
    obtain ⟨c, b⟩ := p
    by_cases hc : c = ch
    · subst hc
      by_cases h : ch' = c <;> simp [updateBucket, lookupB, bucketOfI, h, eq_comm]
    · by_cases h : ch' = c
      · subst h
        simp [updateBucket, lookupB, hc, Ne.symm hc, eq_comm]
      · simp [updateBucket, lookupB, hc, Ne.symm h, ih, bucketOfI]

theorem lookupB_modifyBucket (idx : List (Letter × List Key)) (ch ch' : Letter)
    (f : List Key → List Key) :
    lookupB (modifyBucket idx ch f) ch' =
      if ch' = ch then (lookupB idx ch).map f else lookupB idx ch' := by
  induction idx with
  | nil =>
    by_cases h : ch' = ch <;> simp [modifyBucket, lookupB, h]
  | cons p rest ih =>
    obtain ⟨c, b⟩ := p
    by_cases hc : c = ch
    · subst hc
      by_cases h : ch' = c <;> simp [modifyBucket, lookupB, h, eq_comm]
    · by_cases h : ch' = c
      · subst h
        simp [modifyBucket, lookupB, hc, Ne.symm hc, eq_comm]
      · simp [modifyBucket, lookupB, hc, Ne.symm h, ih]

theorem bucketOfI_updateBucket (idx : List (Letter × List Key)) (ch ch' : Letter)
    (f : List Key → List Key) :
    bucketOfI (updateBucket idx ch f) ch' =
      if ch' = ch then f (bucketOfI idx ch) else bucketOfI idx ch' := by
  unfold bucketOfI
  rw [lookupB_updateBucket]
  split <;> simp [bucketOfI]

theorem bucketOfI_modifyBucket (idx : List (Letter × List Key)) (ch ch' : Letter)
    (f : List Key → List Key) (hnil : f [] = []) :
    bucketOfI (modifyBucket idx ch f) ch' =
      if ch' = ch then f (bucketOfI idx ch) else bucketOfI idx ch' := by
  unfold bucketOfI
  rw [lookupB_modifyBucket]
  split
  · cases h : lookupB idx ch <;> simp [h, hnil]
  · rfl

theorem mem_bucketOfI_bucketsIns (ins : List Key → List Key) (k : Key)
    (hins : ∀ b x, x ∈ ins b ↔ x = k ∨ x ∈ b) :
    ∀ (ls : List Letter) (idx : List (Letter × List Key)) (ch : Letter) (x : Key),
      x ∈ bucketOfI (bucketsIns ins ls idx) ch ↔
        x ∈ bucketOfI idx ch ∨ (x = k ∧ ch ∈ ls)
  | [], idx, ch, x => by simp [bucketsIns]
  | c :: ls, idx, ch, x => by
    rw [bucketsIns, mem_bucketOfI_bucketsIns ins k hins ls _ ch x, bucketOfI_updateBucket]
    by_cases hc : ch = c
    · subst hc
      rw [if_pos rfl]
      simp only [hins, List.mem_cons]
      tauto
    · simp only [if_neg hc, List.mem_cons]
      tauto

theorem nodup_bucketOfI_bucketsIns {ins : List Key → List Key}
    (hnd : ∀ b : List Key, b.Nodup → (ins b).Nodup) :
    ∀ (ls : List Letter) (idx : List (Letter × List Key)),
      (∀ ch, (bucketOfI idx ch).Nodup) →
      ∀ ch, (bucketOfI (bucketsIns ins ls idx) ch).Nodup
  | [], _, h, ch => h ch
  | c :: ls, idx, h, ch => by
    rw [bucketsIns]
    refine nodup_bucketOfI_bucketsIns hnd ls _ (fun ch' => ?_) ch
    rw [bucketOfI_updateBucket]
    split
    · exact hnd _ (h c)
    · exact h ch'

theorem mem_bucketOfI_bucketsModRem (k : Key) :
    ∀ (ls : List Letter) (idx : List (Letter × List Key)) (ch : Letter) (x : Key),
      x ∈ bucketOfI (bucketsMod (fun b => listRemove b k) ls idx) ch ↔
        x ∈ bucketOfI idx ch ∧ ¬(x = k ∧ ch ∈ ls)
  | [], idx, ch, x => by simp [bucketsMod]
  | c :: ls, idx, ch, x => by
    rw [bucketsMod, mem_bucketOfI_bucketsModRem k ls _ ch x,
      bucketOfI_modifyBucket _ _ _ (fun b => listRemove b k) (listRemove_nil k)]
    by_cases hc : ch = c
    · subst hc
      rw [if_pos rfl]
      simp only [mem_listRemove, List.mem_cons]
      tauto
    · rw [if_neg hc]
      simp only [List.mem_cons]
      tauto

theorem mem_bucketOfI_bucketsModPres (f : List Key → List Key)
    (hnil : f [] = []) (hf : ∀ (b : List Key) (x : Key), x ∈ f b ↔ x ∈ b) :
    ∀ (ls : List Letter) (idx : List (Letter × List Key)) (ch : Letter) (x : Key),
      x ∈ bucketOfI (bucketsMod f ls idx) ch ↔ x ∈ bucketOfI idx ch
  | [], idx, ch, x => by simp [bucketsMod]
  | c :: ls, idx, ch, x => by
    rw [bucketsMod, mem_bucketOfI_bucketsModPres f hnil hf ls _ ch x,
      bucketOfI_modifyBucket _ _ _ f hnil]
    split
    · next h => subst h; exact hf _ x
    · exact Iff.rfl

theorem nodup_bucketOfI_bucketsMod (f : List Key → List Key)
    (hnil : f [] = []) (hnd : ∀ b : List Key, b.Nodup → (f b).Nodup) :
    ∀ (ls : List Letter) (idx : List (Letter × List Key)),
      (∀ ch, (bucketOfI idx ch).Nodup) →
      ∀ ch, (bucketOfI (bucketsMod f ls idx) ch).Nodup
  | [], _, h, ch => h ch
  | c :: ls, idx, h, ch => by
    rw [bucketsMod]
    refine nodup_bucketOfI_bucketsMod f hnil hnd ls _ (fun ch' => ?_) ch
    rw [bucketOfI_modifyBucket _ _ _ f hnil]
    split
    · exact hnd _ (h c)
    · exact h ch'

/-! ### Views are duplicate-free -/

/-- Invariant: the unfiltered list, every letter bucket, and the
type-filtered view are duplicate-free. -/
def NodupInv (s : IndexedList) : Prop :=
  s.list.Nodup ∧ (∀ ch, (s.bucketOf ch).Nodup) ∧
    (∀ f, s.pFiltered = some f → f.Nodup)

theorem nodupInv_applyOp (s : IndexedList) (o : Op) (h : NodupInv s) :
    NodupInv (applyOp s o) := by
  obtain ⟨h1, h2, h3⟩ := h
  cases o with
  | addToEnd k e =>
    show NodupInv (s.addToEnd k e)
    unfold IndexedList.addToEnd
    split
    · exact ⟨h1, h2, h3⟩
    · next hk =>
      refine ⟨?_, ?_, h3⟩
      · rw [(List.perm_append_singleton k s.list).nodup_iff]
        exact List.Nodup.cons hk h1
      · intro ch
        exact nodup_bucketOfI_bucketsIns (fun b hb => nodup_listAddToEnd hb k)
          e.letters s.index h2 ch
  | addByName k e =>
    show NodupInv (s.addByName k e)
    unfold IndexedList.addByName
    split
    · exact ⟨h1, h2, h3⟩
    · next hk =>
      refine ⟨nodup_insertSorted hk h1, ?_, h3⟩
      intro ch
      exact nodup_bucketOfI_bucketsIns (fun b hb => nodup_listAddByName hb k)
        e.letters s.index h2 ch
  | peerNameChanged k oldChars e =>
    show NodupInv (s.peerNameChanged k oldChars e)
    unfold IndexedList.peerNameChanged
    split
    · refine ⟨?_, ?_, h3⟩
      · split
        · exact nodup_insertSorted (not_mem_listRemove s.list k) (nodup_listRemove h1 k)
        · exact h1
      · intro ch
        refine nodup_bucketOfI_bucketsIns (fun b hb => nodup_listAddByName hb k) _ _
          (fun ch' => ?_) ch
        refine nodup_bucketOfI_bucketsMod (fun b => listRemove b k) (listRemove_nil k)
          (fun b hb => nodup_listRemove hb k) _ _ (fun ch'' => ?_) ch'
        exact nodup_bucketOfI_bucketsMod (fun b => bucketReposition ((k, e) :: s.info) b k)
          (bucketReposition_nil ((k, e) :: s.info) k)
          (fun b hb => nodup_bucketReposition hb k) _ _ h2 ch''
    · exact ⟨h1, h2, h3⟩
  | del k =>
    show NodupInv (s.del k)
    unfold IndexedList.del
    split
    · refine ⟨nodup_listRemove h1 k, ?_, ?_⟩
      · intro ch
        exact nodup_bucketOfI_bucketsMod (fun b => listRemove b k) (listRemove_nil k)
          (fun b hb => nodup_listRemove hb k) _ _ h2 ch
      · intro f hf
        cases hp : s.pFiltered with
        | none => rw [hp] at hf; simp at hf
        | some f0 =>
          rw [hp] at hf
          simp only [Option.map_some'] at hf
          cases hf
          exact nodup_listRemove (h3 f0 hp) k
    · exact ⟨h1, h2, h3⟩
  | movePinned k d =>
    show NodupInv (s.movePinned k d)
    unfold IndexedList.movePinned
    split
    · exact ⟨(perm_swapForward _ k s.list).nodup_iff.mpr h1, h2, h3⟩
    · split
      · exact ⟨(perm_swapBack _ k s.list).nodup_iff.mpr h1, h2, h3⟩
      · exact ⟨h1, h2, h3⟩
  | moveToTop k =>
    show NodupInv (s.moveToTop k)
    unfold IndexedList.moveToTop
    split
    · exact ⟨List.Nodup.cons (not_mem_listRemove s.list k) (nodup_listRemove h1 k), h2, h3⟩
    · exact ⟨h1, h2, h3⟩
  | adjustByDate k =>
    show NodupInv (s.adjustByDate k)
    unfold IndexedList.adjustByDate
    split
    · exact ⟨nodup_insertSorted (not_mem_listRemove s.list k) (nodup_listRemove h1 k), h2, h3⟩
    · exact ⟨h1, h2, h3⟩
  | setFilterTypes t =>
    exact ⟨h1, h2, h3⟩
  | performFilter =>
    show NodupInv s.performFilter
    unfold IndexedList.performFilter
    split
    · refine ⟨h1, h2, ?_⟩
      intro f hf
      simp only [Option.some.injEq] at hf
      cases hf
      exact h1.filter _
    · refine ⟨h1, h2, ?_⟩
      intro f hf
      simp at hf
  | clear =>
    show NodupInv s.clear
    refine ⟨List.nodup_nil, ?_, ?_⟩
    · intro ch
      show (bucketOfI [] ch).Nodup
      simp [bucketOfI, lookupB]
    · intro f hf
      simp [IndexedList.clear] at hf

/-! ### Bucket-membership consistency invariant -/

/-- Specialization: membership after inserting `k` at the end of the
buckets of the letters `ls`. -/
theorem mem_bucketsIns_addToEnd (k : Key) (ls : List Letter)
    (idx : List (Letter × List Key)) (ch : Letter) (x : Key) :
    x ∈ bucketOfI (bucketsIns (fun b => listAddToEnd b k) ls idx) ch ↔
      x ∈ bucketOfI idx ch ∨ (x = k ∧ ch ∈ ls) :=
  mem_bucketOfI_bucketsIns (fun b => listAddToEnd b k) k
    (fun _ _ => mem_listAddToEnd) ls idx ch x

/-- Specialization: membership after inserting `k` by name into the
buckets of the letters `ls`. -/
theorem mem_bucketsIns_addByName (info : List (Key × EntryInfo)) (k : Key)
    (ls : List Letter) (idx : List (Letter × List Key)) (ch : Letter) (x : Key) :
    x ∈ bucketOfI (bucketsIns (fun b => listAddByName info b k) ls idx) ch ↔
      x ∈ bucketOfI idx ch ∨ (x = k ∧ ch ∈ ls) :=
  mem_bucketOfI_bucketsIns (fun b => listAddByName info b k) k
    (fun _ _ => mem_listAddByName) ls idx ch x

/-- Specialization: repositioning `k` inside buckets leaves membership
unchanged. -/
theorem mem_bucketsMod_repos (info : List (Key × EntryInfo)) (k : Key)
    (ls : List Letter) (idx : List (Letter × List Key)) (ch : Letter) (x : Key) :
    x ∈ bucketOfI (bucketsMod (fun b => bucketReposition info b k) ls idx) ch ↔
      x ∈ bucketOfI idx ch :=
  mem_bucketOfI_bucketsModPres (fun b => bucketReposition info b k)
    (bucketReposition_nil info k) (fun _ _ => mem_bucketReposition) ls idx ch x

/-- Invariant: components form of "a key of the unfiltered list sits in
exactly the buckets of its current first letters, and buckets only hold
keys of the unfiltered list". -/
def MemInvC (lst : List Key) (idx : List (Letter × List Key))
    (info : List (Key × EntryInfo)) : Prop :=
  (∀ k, k ∈ lst → ∀ ch, (k ∈ bucketOfI idx ch ↔ ch ∈ lettersOfI info k)) ∧
  (∀ ch k, k ∈ bucketOfI idx ch → k ∈ lst)

/-- Invariant: every key of the unfiltered list appears in exactly the
letter buckets of its current name's first letters; buckets never hold
absent keys. -/
def MemInv (s : IndexedList) : Prop :=
  MemInvC s.list s.index s.info

theorem memInvC_permList (lst lst' : List Key) (idx : List (Letter × List Key))
    (info : List (Key × EntryInfo)) (hl : ∀ x, x ∈ lst' ↔ x ∈ lst)
    (h : MemInvC lst idx info) : MemInvC lst' idx info := by
  obtain ⟨hM, hS⟩ := h
  exact ⟨fun x hx ch => hM x ((hl x).mp hx) ch, fun ch x hx => (hl x).mpr (hS ch x hx)⟩

theorem memInvC_addToEnd (lst : List Key) (idx : List (Letter × List Key))
    (info : List (Key × EntryInfo)) (k : Key) (e : EntryInfo)
    (hk : k ∉ lst) (h : MemInvC lst idx info) :
    MemInvC (lst ++ [k]) (bucketsIns (fun b => listAddToEnd b k) e.letters idx)
      ((k, e) :: info) := by
  obtain ⟨hM, hS⟩ := h
  constructor
  · intro x hx ch
    rw [List.mem_append, List.mem_singleton] at hx
    rw [mem_bucketsIns_addToEnd]
    rcases hx with hx | rfl
    · have hxk : x ≠ k := by rintro rfl; exact hk hx
      rw [lettersOfI_cons_ne info e hxk]
      have hb := hM x hx ch
      tauto
    · rw [lettersOfI_cons_self]
      constructor
      · rintro (hb | ⟨_, hch⟩)
        · exact absurd (hS ch x hb) hk
        · exact hch
      · exact fun hch => Or.inr ⟨rfl, hch⟩
  · intro ch x hx
    rw [mem_bucketsIns_addToEnd] at hx
    rw [List.mem_append, List.mem_singleton]
    rcases hx with hx | ⟨rfl, _⟩
    · exact Or.inl (hS ch x hx)
    · exact Or.inr rfl

theorem memInvC_addByName (lst : List Key) (idx : List (Letter × List Key))
    (info : List (Key × EntryInfo)) (k : Key) (e : EntryInfo)
    (hk : k ∉ lst) (h : MemInvC lst idx info) :
    MemInvC (insertSorted (nameLE ((k, e) :: info)) k lst)
      (bucketsIns (fun b => listAddByName ((k, e) :: info) b k) e.letters idx)
      ((k, e) :: info) := by
  obtain ⟨hM, hS⟩ := h
  constructor
  · intro x hx ch
    rw [mem_insertSorted] at hx
    rw [mem_bucketsIns_addByName]
    rcases hx with rfl | hx
    · rw [lettersOfI_cons_self]
      constructor
      · rintro (hb | ⟨_, hch⟩)
        · exact absurd (hS ch x hb) hk
        · exact hch
      · exact fun hch => Or.inr ⟨rfl, hch⟩
    · have hxk : x ≠ k := by rintro rfl; exact hk hx
      rw [lettersOfI_cons_ne info e hxk]
      have hb := hM x hx ch
      tauto
  · intro ch x hx
    rw [mem_bucketsIns_addByName] at hx
    rw [mem_insertSorted]
    rcases hx with hx | ⟨rfl, _⟩
    · exact Or.inr (hS ch x hx)
    · exact Or.inl rfl

theorem memInvC_rename (lst : List Key) (idx : List (Letter × List Key))
    (info : List (Key × EntryInfo)) (k : Key) (oldChars : List Letter)
    (e : EntryInfo) (hkl : k ∈ lst)
    (hOld : ∀ ch, ch ∈ oldChars ↔ ch ∈ lettersOfI info k)
    (lst' : List Key) (hlst' : ∀ x, x ∈ lst' ↔ x ∈ lst)
    (h : MemInvC lst idx info) :
    MemInvC lst'
      (bucketsIns (fun b => listAddByName ((k, e) :: info) b k)
        (e.letters.filter (fun ch => decide (ch ∉ oldChars)))
        (bucketsMod (fun b => listRemove b k)
          (oldChars.filter (fun ch => decide (ch ∉ e.letters)))
          (bucketsMod (fun b => bucketReposition ((k, e) :: info) b k)
            (e.letters.filter (fun ch => decide (ch ∈ oldChars))) idx)))
      ((k, e) :: info) := by
  obtain ⟨hM, hS⟩ := h
  constructor
  · intro x hx ch
    rw [hlst'] at hx
    rw [mem_bucketsIns_addByName, mem_bucketOfI_bucketsModRem, mem_bucketsMod_repos]
    by_cases hxk : x = k
    · subst hxk
      rw [lettersOfI_cons_self]
      have hb := hM x hx ch
      have ho := hOld ch
      simp only [List.mem_filter, decide_eq_true_eq]
      tauto
    · rw [lettersOfI_cons_ne info e hxk]
      have hb := hM x hx ch
      tauto
  · intro ch x hx
    rw [mem_bucketsIns_addByName, mem_bucketOfI_bucketsModRem, mem_bucketsMod_repos] at hx
    rw [hlst']
    rcases hx with ⟨hx, _⟩ | ⟨rfl, _⟩
    · exact hS ch x hx
    · exact hkl

theorem memInvC_del (lst : List Key) (idx : List (Letter × List Key))
    (info : List (Key × EntryInfo)) (k : Key) (h : MemInvC lst idx info) :
    MemInvC (listRemove lst k)
      (bucketsMod (fun b => listRemove b k) (lettersOfI info k) idx) info := by
  obtain ⟨hM, hS⟩ := h
  constructor
  · intro x hx ch
    rw [mem_listRemove] at hx
    obtain ⟨hxl, hxk⟩ := hx
    rw [mem_bucketOfI_bucketsModRem]
    have hb := hM x hxl ch
    tauto
  · intro ch x hx
    rw [mem_bucketOfI_bucketsModRem] at hx
    obtain ⟨hxb, hno⟩ := hx
    have hxl := hS ch x hxb
    rw [mem_listRemove]
    refine ⟨hxl, ?_⟩
    rintro rfl
    exact hno ⟨rfl, (hM x hxl ch).mp hxb⟩

theorem memInv_applyOp (s : IndexedList) (o : Op) (hwf : wfOp s o = true)
    (h : MemInv s) : MemInv (applyOp s o) := by
  cases o with
  | addToEnd k e =>
    show MemInv (s.addToEnd k e)
    unfold IndexedList.addToEnd
    split
    · exact h
    · next hk => exact memInvC_addToEnd s.list s.index s.info k e hk h
  | addByName k e =>
    show MemInv (s.addByName k e)
    unfold IndexedList.addByName
    split
    · exact h
    · next hk => exact memInvC_addByName s.list s.index s.info k e hk h
  | peerNameChanged k oldChars e =>
    show MemInv (s.peerNameChanged k oldChars e)
    unfold IndexedList.peerNameChanged
    split
    · next hkl =>
      have hOld : ∀ ch, ch ∈ oldChars ↔ ch ∈ lettersOfI s.info k := by
        simp only [wfOp, Bool.or_eq_true, Bool.not_eq_true', decide_eq_false_iff_not,
          decide_eq_true_eq] at hwf
        rcases hwf with hno | hiff
        · exact absurd hkl hno
        · exact fun ch => ⟨fun hc => hiff.1 ch hc, fun hc => hiff.2 ch hc⟩
      refine memInvC_rename s.list s.index s.info k oldChars e hkl hOld _ (fun x => ?_) h
      split
      · rw [mem_insertSorted, mem_listRemove]
        constructor
        · rintro (rfl | ⟨hx, _⟩)
          · exact hkl
          · exact hx
        · intro hx
          by_cases hxk : x = k
          · exact Or.inl hxk
          · exact Or.inr ⟨hx, hxk⟩
      · exact Iff.rfl
    · next hkl =>
      obtain ⟨hM, hS⟩ := h
      refine ⟨?_, hS⟩
      intro x hx ch
      have hxk : x ≠ k := by rintro rfl; exact hkl hx
      rw [show lettersOfI ((k, e) :: s.info) x = lettersOfI s.info x from
        lettersOfI_cons_ne s.info e hxk]
      exact hM x hx ch
  | del k =>
    show MemInv (s.del k)
    unfold IndexedList.del
    split
    · exact memInvC_del s.list s.index s.info k h
    · exact h
  | movePinned k d =>
    show MemInv (s.movePinned k d)
    unfold IndexedList.movePinned
    split
    · exact memInvC_permList s.list _ s.index s.info
        (fun x => (perm_swapForward (fun y => pinnedOfI s.info y) k s.list).mem_iff) h
    · split
      · exact memInvC_permList s.list _ s.index s.info
          (fun x => (perm_swapBack (fun y => pinnedOfI s.info y) k s.list).mem_iff) h
      · exact h
  | moveToTop k =>
    show MemInv (s.moveToTop k)
    unfold IndexedList.moveToTop
    split
    · next hkl =>
      refine memInvC_permList s.list _ s.index s.info (fun x => ?_) h
      rw [List.mem_cons, mem_listRemove]
      constructor
      · rintro (rfl | ⟨hx, _⟩)
        · exact hkl
        · exact hx
      · intro hx
        by_cases hxk : x = k
        · exact Or.inl hxk
        · exact Or.inr ⟨hx, hxk⟩
    · exact h
  | adjustByDate k =>
    show MemInv (s.adjustByDate k)
    unfold IndexedList.adjustByDate
    split
    · next hkl =>
      refine memInvC_permList s.list _ s.index s.info (fun x => ?_) h
      rw [mem_insertSorted, mem_listRemove]
      constructor
      · rintro (rfl | ⟨hx, _⟩)
        · exact hkl
        · exact hx
      · intro hx
        by_cases hxk : x = k
        · exact Or.inl hxk
        · exact Or.inr ⟨hx, hxk⟩
    · exact h
  | setFilterTypes t => exact h
  | performFilter =>
    show MemInv s.performFilter
    unfold IndexedList.performFilter
    split
    · exact h
    · exact h
  | clear =>
    show MemInv s.clear
    constructor
    · intro x hx ch
      exact absurd hx (List.not_mem_nil x)
    · intro ch x hx
      simp [bucketOfI, lookupB] at hx

theorem memInv_run (s : IndexedList) (ops : List Op) (h : MemInv s)
    (hwf : wfTrace s ops = true) : MemInv (run s ops) := by
  induction ops generalizing s with
  | nil => exact h
  | cons o os ih =>
    rw [wfTrace, Bool.and_eq_true] at hwf
    exact ih (applyOp s o) (memInv_applyOp s o hwf.1 h) hwf.2

theorem memInv_init (m : SortMode) : MemInv (IndexedList.init m) := by
  constructor
  · intro x hx ch
    exact absurd hx (List.not_mem_nil x)
  · intro ch x hx
    simp [IndexedList.init, bucketOfI, lookupB] at hx

theorem nodupInv_run (s : IndexedList) (ops : List Op) (h : NodupInv s) :
    NodupInv (run s ops) := by
  induction ops generalizing s with
  | nil => exact h
  | cons o os ih => exact ih (applyOp s o) (nodupInv_applyOp s o h)

theorem nodupInv_init (m : SortMode) : NodupInv (IndexedList.init m) := by
  refine ⟨List.nodup_nil, ?_, ?_⟩
  · intro ch
    show (bucketOfI [] ch).Nodup
    simp [bucketOfI, lookupB]
  · intro f hf
    simp [IndexedList.init] at hf

/-! ### Pinned-prefix machinery -/

theorem tripleLE_true_rank {a b : Nat × Nat × Nat} (h : tripleLE a b = true) :
    a.1 ≤ b.1 := by
  unfold tripleLE at h
  rw [decide_eq_true_eq] at h
  rcases h with h | ⟨h, _⟩
  · exact Nat.le_of_lt h
  · exact Nat.le_of_eq h

theorem tripleLE_false_rank {a b : Nat × Nat × Nat} (h : tripleLE a b = false) :
    b.1 ≤ a.1 := by
  unfold tripleLE at h
  rw [decide_eq_false_iff_not] at h
  exact Nat.le_of_not_lt (fun hh => h (Or.inl hh))

theorem rankOf_eq_zero_iff (info : List (Key × EntryInfo)) (k : Key) :
    rankOf info k = 0 ↔ pinnedOfI info k = true := by
  by_cases hp : pinnedOfI info k = true <;> simp [rankOf, hp]

theorem nameLE_true_pin {info : List (Key × EntryInfo)} {k a : Key}
    (h : nameLE info k a = true) (hp : pinnedOfI info a = true) :
    pinnedOfI info k = true := by
  have h2 : rankOf info k ≤ rankOf info a := tripleLE_true_rank h
  rw [← rankOf_eq_zero_iff] at hp ⊢
  omega

theorem nameLE_false_pin {info : List (Key × EntryInfo)} {k a : Key}
    (h : nameLE info k a = false) (hp : pinnedOfI info k = true) :
    pinnedOfI info a = true := by
  have h2 : rankOf info a ≤ rankOf info k := tripleLE_false_rank h
  rw [← rankOf_eq_zero_iff] at hp ⊢
  omega

/-- A later pinned row forces every earlier row to be pinned: holding
pairwise, this says the pinned rows form a contiguous leading run. -/
def pinRel (pin : Key → Bool) (a b : Key) : Prop :=
  pin b = true → pin a = true

theorem pairwise_insertSorted_pin (info : List (Key × EntryInfo)) (k : Key) :
    ∀ l : List Key,
      l.Pairwise (pinRel (fun x => pinnedOfI info x)) →
      (insertSorted (nameLE info) k l).Pairwise (pinRel (fun x => pinnedOfI info x))
  | [], _ => by simp [insertSorted, pinRel]
  | a :: rest, h => by
    rw [List.pairwise_cons] at h
    obtain ⟨ha, hrest⟩ := h
    by_cases hle : nameLE info k a = true
    · simp only [insertSorted, hle, if_true]
      rw [List.pairwise_cons]
      refine ⟨?_, List.pairwise_cons.mpr ⟨ha, hrest⟩⟩
      intro x hx hpx
      rw [List.mem_cons] at hx
      rcases hx with rfl | hx
      · exact nameLE_true_pin hle hpx
      · exact nameLE_true_pin hle (ha x hx hpx)
    · have hle' : nameLE info k a = false := by
        revert hle; cases nameLE info k a <;> simp
      have hstep : insertSorted (nameLE info) k (a :: rest) =
          a :: insertSorted (nameLE info) k rest := by
        simp [insertSorted, hle]
      rw [hstep, List.pairwise_cons]
      refine ⟨?_, pairwise_insertSorted_pin info k rest hrest⟩
      intro x hx hpx
      rw [mem_insertSorted] at hx
      rcases hx with rfl | hx
      · exact nameLE_false_pin hle' hpx
      · exact ha x hx hpx

theorem pairwise_swapForward_pin (pin : Key → Bool) (k : Key) :
    ∀ l : List Key, l.Pairwise (pinRel pin) →
      (swapForward pin k l).Pairwise (pinRel pin)
  | [], h => h
  | [a], h => h
  | a :: b :: rest, h => by
    rw [List.pairwise_cons] at h
    obtain ⟨ha, hrest⟩ := h
    have hrest' := hrest
    rw [List.pairwise_cons] at hrest'
    obtain ⟨hb, hrest2⟩ := hrest'
    by_cases hak : a = k
    · subst hak
      by_cases hpin : (pin a && pin b) = true
      · have hstep : swapForward pin a (a :: b :: rest) = b :: a :: rest := by
          simp [swapForward, hpin]
        rw [hstep, Bool.and_eq_true] at *
        rw [List.pairwise_cons]
        constructor
        · intro x hx _
          exact hpin.2
        · rw [List.pairwise_cons]
          exact ⟨fun x hx => ha x (List.mem_cons_of_mem b hx), hrest2⟩
      · have hstep : swapForward pin a (a :: b :: rest) = a :: b :: rest := by
          simp [swapForward, hpin]
        rw [hstep, List.pairwise_cons]
        exact ⟨ha, hrest⟩
    · have hstep : swapForward pin k (a :: b :: rest) =
          a :: swapForward pin k (b :: rest) := by
        simp [swapForward, hak]
      rw [hstep, List.pairwise_cons]
      constructor
      · intro x hx
        rw [(perm_swapForward pin k (b :: rest)).mem_iff] at hx
        exact ha x hx
      · exact pairwise_swapForward_pin pin k (b :: rest) hrest

theorem pairwise_swapBack_pin (pin : Key → Bool) (k : Key) :
    ∀ l : List Key, l.Pairwise (pinRel pin) →
      (swapBack pin k l).Pairwise (pinRel pin)
  | [], h => h
  | [a], h => h
  | a :: b :: rest, h => by
    rw [List.pairwise_cons] at h
    obtain ⟨ha, hrest⟩ := h
    have hrest' := hrest
    rw [List.pairwise_cons] at hrest'
    obtain ⟨hb, hrest2⟩ := hrest'
    by_cases hbk : b = k
    · subst hbk
      by_cases hpin : (pin a && pin b) = true
      · have hstep : swapBack pin b (a :: b :: rest) = b :: a :: rest := by
          simp [swapBack, hpin]
        rw [hstep, Bool.and_eq_true] at *
        rw [List.pairwise_cons]
        constructor
        · intro x hx _
          exact hpin.2
        · rw [List.pairwise_cons]
          exact ⟨fun x hx => ha x (List.mem_cons_of_mem b hx), hrest2⟩
      · have hstep : swapBack pin b (a :: b :: rest) = a :: b :: rest := by
          simp [swapBack, hpin]
        rw [hstep, List.pairwise_cons]
        exact ⟨ha, hrest⟩
    · have hstep : swapBack pin k (a :: b :: rest) =
          a :: swapBack pin k (b :: rest) := by
        simp [swapBack, hbk]
      rw [hstep, List.pairwise_cons]
      constructor
      · intro x hx
        rw [(perm_swapBack pin k (b :: rest)).mem_iff] at hx
        exact ha x hx
      · exact pairwise_swapBack_pin pin k (b :: rest) hrest

/-- Invariant: the pinned rows occupy a contiguous prefix of the
unfiltered list (whenever a row is pinned, every row before it is). -/
def PinnedFront (s : IndexedList) : Prop :=
  s.list.Pairwise (pinRel (fun x => pinnedOfI s.info x))

theorem pinnedFront_applyOp (s : IndexedList) (o : Op) (ho : byNameOp o = true)
    (h : PinnedFront s) : PinnedFront (applyOp s o) := by
  cases o with
  | addToEnd k e => simp [byNameOp] at ho
  | addByName k e =>
    show PinnedFront (s.addByName k e)
    unfold IndexedList.addByName
    split
    · exact h
    · next hk =>
      have htrans : s.list.Pairwise (pinRel (fun x => pinnedOfI ((k, e) :: s.info) x)) := by
        refine List.Pairwise.imp_of_mem ?_ h
        intro a b hma hmb hab hpb
        have hak : a ≠ k := by rintro rfl; exact hk hma
        have hbk : b ≠ k := by rintro rfl; exact hk hmb
        have hpb' : pinnedOfI ((k, e) :: s.info) b = true := hpb
        rw [pinnedOfI_cons_ne s.info e hbk] at hpb'
        show pinnedOfI ((k, e) :: s.info) a = true
        rw [pinnedOfI_cons_ne s.info e hak]
        exact hab hpb'
      exact pairwise_insertSorted_pin ((k, e) :: s.info) k s.list htrans
  | peerNameChanged k oldChars e => simp [byNameOp] at ho
  | del k =>
    show PinnedFront (s.del k)
    unfold IndexedList.del
    split
    · exact List.Pairwise.sublist (List.filter_sublist s.list) h
    · exact h
  | movePinned k d =>
    show PinnedFront (s.movePinned k d)
    unfold IndexedList.movePinned
    split
    · exact pairwise_swapForward_pin _ k s.list h
    · split
      · exact pairwise_swapBack_pin _ k s.list h
      · exact h
  | moveToTop k => simp [byNameOp] at ho
  | adjustByDate k => simp [byNameOp] at ho
  | setFilterTypes t => simp [byNameOp] at ho
  | performFilter => simp [byNameOp] at ho
  | clear => simp [byNameOp] at ho

theorem pinnedFront_run (s : IndexedList) (ops : List Op)
    (hops : ∀ o ∈ ops, byNameOp o = true) (h : PinnedFront s) :
    PinnedFront (run s ops) := by
  induction ops generalizing s with
  | nil => exact h
  | cons o os ih =>
    exact ih (applyOp s o) (fun o' ho' => hops o' (List.mem_cons_of_mem o ho'))
      (pinnedFront_applyOp s o (hops o (List.mem_cons_self o os)) h)

theorem pinnedFront_init (m : SortMode) : PinnedFront (IndexedList.init m) :=
  List.Pairwise.nil

theorem swapForward_cons_ne (pin : Key → Bool) (k a : Key) (l : List Key)
    (ha : a ≠ k) (hl : l ≠ []) :
    swapForward pin k (a :: l) = a :: swapForward pin k l := by
  cases l with
  | nil => exact absurd rfl hl
  | cons x t => simp [swapForward, ha]

theorem swapBack_cons_cons (pin : Key → Bool) (k a x : Key) (t : List Key)
    (hx : x ≠ k) : swapBack pin k (a :: x :: t) = a :: swapBack pin k (x :: t) := by
  simp [swapBack, hx]

theorem swapForward_spec (pin : Key → Bool) (k b : Key) (hpk : pin k = true)
    (hpb : pin b = true) :
    ∀ (A B : List Key), k ∉ A →
      swapForward pin k (A ++ k :: b :: B) = A ++ b :: k :: B := by
  intro A
  induction A with
  | nil =>
    intro B _
    simp [swapForward, hpk, hpb]
  | cons a A ih =>
    intro B hkA
    rw [List.mem_cons, not_or] at hkA
    obtain ⟨hka, hkA⟩ := hkA
    rw [List.cons_append, swapForward_cons_ne pin k a _ (Ne.symm hka) (by simp),
      ih B hkA, List.cons_append]

theorem swapBack_spec (pin : Key → Bool) (k b : Key) (hpk : pin k = true)
    (hpb : pin b = true) :
    ∀ (A B : List Key), k ∉ A → b ≠ k →
      swapBack pin k (A ++ b :: k :: B) = A ++ k :: b :: B := by
  intro A
  induction A with
  | nil =>
    intro B _ _
    simp [swapBack, hpk, hpb]
  | cons a A ih =>
    intro B hkA hbk
    rw [List.mem_cons, not_or] at hkA
    obtain ⟨hka, hkA⟩ := hkA
    have hskip : swapBack pin k (a :: (A ++ b :: k :: B)) =
        a :: swapBack pin k (A ++ b :: k :: B) := by
      cases A with
      | nil => exact swapBack_cons_cons pin k a b (k :: B) hbk
      | cons a2 A2 =>
        refine swapBack_cons_cons pin k a a2 (A2 ++ b :: k :: B) ?_
        rintro rfl
        exact hkA (List.mem_cons_self a2 A2)
    rw [List.cons_append, hskip, ih B hkA hbk, List.cons_append]

/-! ### Claim theorems -/

/-- C1: for every well-formed sequence of add (`addToEnd`/`addByName`),
rename (`peerNameChanged`, with the accurate `oldChars` hint its contract
requires) and delete (`del`) operations — and in fact any operations of the
interface — applied to a fresh `IndexedList`, after the sequence the set of
letter buckets containing a present key `k` is exactly the set of first
letters of the tokens of `k`'s current display name. -/
theorem C1_bucket_consistency (m : SortMode) (ops : List Op)
    (hwf : wfTrace (IndexedList.init m) ops = true) (k : Key)
    (hk : k ∈ (run (IndexedList.init m) ops).list) (ch : Letter) :
    k ∈ (run (IndexedList.init m) ops).bucketOf ch ↔
      ch ∈ (run (IndexedList.init m) ops).lettersOf k :=
  (memInv_run (IndexedList.init m) ops (memInv_init m) hwf).1 k hk ch

/-- Witness for C1: a concrete trace adding key 1 with letters 7 and 9 and
renaming it to letters 9 and 11; afterwards bucket 11 holds key 1 and
bucket 7 does not. -/
theorem C1_bucket_consistency_witness :
    wfTrace (IndexedList.init SortMode.Date)
        [Op.addToEnd 1 ⟨[7, 9], 0, false, 5, 0⟩,
          Op.peerNameChanged 1 [7, 9] ⟨[9, 11], 2, false, 5, 0⟩] = true ∧
      1 ∈ (run (IndexedList.init SortMode.Date)
        [Op.addToEnd 1 ⟨[7, 9], 0, false, 5, 0⟩,
          Op.peerNameChanged 1 [7, 9] ⟨[9, 11], 2, false, 5, 0⟩]).list ∧
      (1 ∈ (run (IndexedList.init SortMode.Date)
        [Op.addToEnd 1 ⟨[7, 9], 0, false, 5, 0⟩,
          Op.peerNameChanged 1 [7, 9] ⟨[9, 11], 2, false, 5, 0⟩]).bucketOf 11 ↔
        11 ∈ (run (IndexedList.init SortMode.Date)
        [Op.addToEnd 1 ⟨[7, 9], 0, false, 5, 0⟩,
          Op.peerNameChanged 1 [7, 9] ⟨[9, 11], 2, false, 5, 0⟩]).lettersOf 1) :=
  ⟨by decide, by decide,
    C1_bucket_consistency SortMode.Date
      [Op.addToEnd 1 ⟨[7, 9], 0, false, 5, 0⟩,
        Op.peerNameChanged 1 [7, 9] ⟨[9, 11], 2, false, 5, 0⟩]
      (by decide) 1 (by decide) 11⟩

/-- C2: after any operation sequence on a fresh `IndexedList`, every key
appears at most once in the unfiltered list, at most once in every letter
bucket, and at most once in the type-filtered view; in particular re-adding
a present key never creates a second row in any view. -/
theorem C2_no_duplicates (m : SortMode) (ops : List Op) (k : Key) :
    (run (IndexedList.init m) ops).list.count k ≤ 1 ∧
      (∀ ch, ((run (IndexedList.init m) ops).bucketOf ch).count k ≤ 1) ∧
      (∀ f, (run (IndexedList.init m) ops).pFiltered = some f → f.count k ≤ 1) := by
  obtain ⟨h1, h2, h3⟩ := nodupInv_run (IndexedList.init m) ops (nodupInv_init m)
  exact ⟨List.nodup_iff_count_le_one.mp h1 k,
    fun ch => List.nodup_iff_count_le_one.mp (h2 ch) k,
    fun f hf => List.nodup_iff_count_le_one.mp (h3 f hf) k⟩

/-- Witness for C2: inserting key 1 twice leaves a single row of it in the
unfiltered list and in its letter bucket. -/
theorem C2_no_duplicates_witness :
    (run (IndexedList.init SortMode.Date)
        [Op.addToEnd 1 ⟨[3], 0, false, 0, 0⟩,
          Op.addToEnd 1 ⟨[3], 0, false, 0, 0⟩]).list.count 1 ≤ 1 ∧
      ((run (IndexedList.init SortMode.Date)
        [Op.addToEnd 1 ⟨[3], 0, false, 0, 0⟩,
          Op.addToEnd 1 ⟨[3], 0, false, 0, 0⟩]).bucketOf 3).count 1 ≤ 1 :=
  ⟨(C2_no_duplicates SortMode.Date
      [Op.addToEnd 1 ⟨[3], 0, false, 0, 0⟩, Op.addToEnd 1 ⟨[3], 0, false, 0, 0⟩] 1).1,
    (C2_no_duplicates SortMode.Date
      [Op.addToEnd 1 ⟨[3], 0, false, 0, 0⟩, Op.addToEnd 1 ⟨[3], 0, false, 0, 0⟩] 1).2.1 3⟩

/-- C3: deleting a present key removes it atomically from every view:
immediately after `del`, `contains` is false, and the key is gone from the
unfiltered list, from every letter bucket, and from the type-filtered
view. -/
theorem C3_delete_removes_everywhere (m : SortMode) (ops : List Op)
    (hwf : wfTrace (IndexedList.init m) ops = true) (k : Key)
    (hk : k ∈ (run (IndexedList.init m) ops).list) :
    ((run (IndexedList.init m) ops).del k).contains k = false ∧
      k ∉ ((run (IndexedList.init m) ops).del k).list ∧
      (∀ ch, k ∉ ((run (IndexedList.init m) ops).del k).bucketOf ch) ∧
      (∀ f, ((run (IndexedList.init m) ops).del k).pFiltered = some f → k ∉ f) := by
  have hM := memInv_run (IndexedList.init m) ops (memInv_init m) hwf
  set s := run (IndexedList.init m) ops with hs
  have hdel : s.del k = { s with
      list := listRemove s.list k,
      index := bucketsMod (fun b => listRemove b k) (s.lettersOf k) s.index,
      pFiltered := s.pFiltered.map (fun f => listRemove f k) } := by
    unfold IndexedList.del
    rw [if_pos hk]
  have hlist : k ∉ (s.del k).list := by
    rw [hdel]
    exact not_mem_listRemove s.list k
  have hbkt : ∀ ch, k ∉ (s.del k).bucketOf ch := by
    intro ch hkb
    rw [hdel] at hkb
    have hkb' : k ∈ bucketOfI
        (bucketsMod (fun b => listRemove b k) (s.lettersOf k) s.index) ch := hkb
    rw [mem_bucketOfI_bucketsModRem] at hkb'
    exact hkb'.2 ⟨rfl, (hM.1 k hk ch).mp hkb'.1⟩
  have hfil : ∀ f, (s.del k).pFiltered = some f → k ∉ f := by
    intro f hf
    rw [hdel] at hf
    have hf' : s.pFiltered.map (fun g => listRemove g k) = some f := hf
    cases hp : s.pFiltered with
    | none =>
      rw [hp] at hf'
      simp at hf'
    | some f0 =>
      rw [hp] at hf'
      simp only [Option.map_some'] at hf'
      cases hf'
      exact not_mem_listRemove f0 k
  refine ⟨?_, hlist, hbkt, hfil⟩
  have hall : k ∉ (s.del k).all := by
    show k ∉ ((s.del k).pFiltered.getD (s.del k).list)
    cases hp : (s.del k).pFiltered with
    | none => exact hlist
    | some f => exact hfil f hp
  exact decide_eq_false_iff_not.mpr hall

/-- Witness for C3: a concrete trace with an active type filter; deleting
key 1 leaves no view containing it. -/
theorem C3_delete_removes_everywhere_witness :
    wfTrace (IndexedList.init SortMode.Date)
        [Op.addToEnd 1 ⟨[3], 0, false, 0, 0⟩, Op.setFilterTypes 1, Op.performFilter] = true ∧
      1 ∈ (run (IndexedList.init SortMode.Date)
        [Op.addToEnd 1 ⟨[3], 0, false, 0, 0⟩, Op.setFilterTypes 1, Op.performFilter]).list ∧
      ((run (IndexedList.init SortMode.Date)
        [Op.addToEnd 1 ⟨[3], 0, false, 0, 0⟩, Op.setFilterTypes 1,
          Op.performFilter]).del 1).contains 1 = false ∧
      1 ∉ ((run (IndexedList.init SortMode.Date)
        [Op.addToEnd 1 ⟨[3], 0, false, 0, 0⟩, Op.setFilterTypes 1,
          Op.performFilter]).del 1).bucketOf 3 :=
  ⟨by decide, by decide,
    (C3_delete_removes_everywhere SortMode.Date
      [Op.addToEnd 1 ⟨[3], 0, false, 0, 0⟩, Op.setFilterTypes 1, Op.performFilter]
      (by decide) 1 (by decide)).1,
    (C3_delete_removes_everywhere SortMode.Date
      [Op.addToEnd 1 ⟨[3], 0, false, 0, 0⟩, Op.setFilterTypes 1, Op.performFilter]
      (by decide) 1 (by decide)).2.2.1 3⟩

/-- Rows all match the recorded predicate when it excludes no type. -/
theorem rowMatches_of_not_filtered (s : IndexedList)
    (h : s.isFilteredByType = false) (k : Key) : s.rowMatches k = true := by
  unfold IndexedList.rowMatches
  cases he : lookupE s.info k with
  | none => rfl
  | some e =>
    unfold IndexedList.isFilteredByType at h
    rw [List.any_eq_false] at h
    have h2 := h e.etype.val (List.mem_range.mpr e.etype.isLt)
    simpa using h2

/-- C4: for every predicate recorded via `setFilterTypes`, after
`performFilter` the current view is exactly the subsequence of the
unfiltered list consisting of the rows whose entry type satisfies the
predicate, in the unfiltered list's relative order (a sublist). -/
theorem C4_filter_subsequence (s : IndexedList) (t : Nat) :
    ((s.setFilterTypes t).performFilter).all =
        s.list.filter (fun k => (s.setFilterTypes t).rowMatches k) ∧
      (s.list.filter (fun k => (s.setFilterTypes t).rowMatches k)).Sublist s.list := by
  constructor
  · unfold IndexedList.performFilter
    split
    · rfl
    · next hnf =>
      show s.list = _
      rw [Bool.not_eq_true] at hnf
      exact (List.filter_eq_self.mpr
        (fun a _ => rowMatches_of_not_filtered (s.setFilterTypes t) hnf a)).symm
  · exact List.filter_sublist s.list

/-- C5: `all()` returns the type-filtered view when one is active and the
unfiltered list otherwise, and the view-dependent read accessors (`size`,
`empty`, `contains`, `getRow`) resolve the same current view as `all()`. -/
theorem C5_current_view (s : IndexedList) (k : Key) :
    (∀ f, s.pFiltered = some f → s.all = f) ∧
      (s.pFiltered = none → s.all = s.list) ∧
      s.size = s.all.length ∧
      (s.empty = true ↔ s.all = []) ∧
      (s.contains k = true ↔ k ∈ s.all) ∧
      (s.getRow k = some k ↔ k ∈ s.all) ∧
      (s.getRow k = none ↔ k ∉ s.all) := by
  refine ⟨?_, ?_, rfl, ?_, ?_, ?_, ?_⟩
  · intro f hf
    show s.pFiltered.getD s.list = f
    rw [hf]
    rfl
  · intro hf
    show s.pFiltered.getD s.list = s.list
    rw [hf]
    rfl
  · show s.all.isEmpty = true ↔ s.all = []
    cases s.all <;> simp [List.isEmpty]
  · show decide (k ∈ s.all) = true ↔ k ∈ s.all
    exact decide_eq_true_iff
  · unfold IndexedList.getRow
    split
    · next h => simp [h]
    · next h => simp [h]
  · unfold IndexedList.getRow
    split
    · next h => simp [h]
    · next h => simp [h]

/-- Example state for the C5 witness: one entry, with an active type
filter, so the filtered view is the current one. -/
def filteredExState : IndexedList :=
  run (IndexedList.init SortMode.Date)
    [Op.addToEnd 1 ⟨[3], 0, false, 0, 0⟩, Op.setFilterTypes 1, Op.performFilter]

/-- Witness for C5: on the concrete filtered state, `all()` is the active
filtered view and the read accessors agree with it. -/
theorem C5_current_view_witness :
    filteredExState.pFiltered = some [1] ∧
      filteredExState.all = [1] ∧
      filteredExState.size = filteredExState.all.length ∧
      (filteredExState.contains 1 = true ↔ 1 ∈ filteredExState.all) :=
  ⟨by decide, (C5_current_view filteredExState 1).1 [1] (by decide),
    (C5_current_view filteredExState 1).2.2.1,
    (C5_current_view filteredExState 1).2.2.2.2.1⟩

/-- C6: under ByName mode, `movePinned` with deltaSign +1 (resp. -1) swaps
a pinned row with its pinned immediate successor (resp. predecessor), and
after any sequence of addByName/del/movePinned operations (the
mutations meaningful under ByName mode) the pinned keys occupy a contiguous
prefix of the unfiltered list. -/
theorem C6_pinned_moves (ops : List Op) (hops : ∀ o ∈ ops, byNameOp o = true)
    (s : IndexedList) (k b : Key) (A B : List Key) (hnd : s.list.Nodup)
    (hpk : pinnedOfI s.info k = true) (hpb : pinnedOfI s.info b = true) :
    PinnedFront (run (IndexedList.init SortMode.Name) ops) ∧
      (s.list = A ++ k :: b :: B → (s.movePinned k 1).list = A ++ b :: k :: B) ∧
      (s.list = A ++ b :: k :: B → (s.movePinned k (-1)).list = A ++ k :: b :: B) := by
  refine ⟨pinnedFront_run _ ops hops (pinnedFront_init SortMode.Name), ?_, ?_⟩
  · intro hl
    show swapForward (fun x => pinnedOfI s.info x) k s.list = A ++ b :: k :: B
    have hnd' := hnd
    rw [hl, List.nodup_append] at hnd'
    have hkA : k ∉ A := fun hkA => hnd'.2.2 hkA (List.mem_cons_self k (b :: B))
    rw [hl]
    exact swapForward_spec _ k b hpk hpb A B hkA
  · intro hl
    show swapBack (fun x => pinnedOfI s.info x) k s.list = A ++ k :: b :: B
    have hnd' := hnd
    rw [hl, List.nodup_append] at hnd'
    have hkA : k ∉ A :=
      fun hkA => hnd'.2.2 hkA (List.mem_cons_of_mem b (List.mem_cons_self k B))
    have hbk : b ≠ k := by
      have h2 := hnd'.2.1
      rw [List.nodup_cons] at h2
      intro hh
      exact h2.1 (hh ▸ List.mem_cons_self k B)
    rw [hl]
    exact swapBack_spec _ k b hpk hpb A B hkA hbk

/-- Example trace for the C6 witness: two pinned keys added by name. -/
def pinnedExOps : List Op :=
  [Op.addByName 2 ⟨[5], 1, true, 0, 0⟩, Op.addByName 1 ⟨[4], 0, true, 0, 0⟩]

/-- Witness for C6: on the concrete two-pinned-keys state, the pinned
prefix invariant holds and `movePinned 1 (+1)` swaps keys 1 and 2. -/
theorem C6_pinned_moves_witness :
    pinnedExOps.all byNameOp = true ∧
      (run (IndexedList.init SortMode.Name) pinnedExOps).list.Nodup ∧
      pinnedOfI (run (IndexedList.init SortMode.Name) pinnedExOps).info 1 = true ∧
      pinnedOfI (run (IndexedList.init SortMode.Name) pinnedExOps).info 2 = true ∧
      PinnedFront (run (IndexedList.init SortMode.Name) pinnedExOps) ∧
      ((run (IndexedList.init SortMode.Name) pinnedExOps).movePinned 1 1).list =
        [] ++ 2 :: 1 :: [] :=
  ⟨by decide, by decide, by decide, by decide,
    (C6_pinned_moves pinnedExOps (by decide)
      (run (IndexedList.init SortMode.Name) pinnedExOps) 1 2 [] []
      (by decide) (by decide) (by decide)).1,
    (C6_pinned_moves pinnedExOps (by decide)
      (run (IndexedList.init SortMode.Name) pinnedExOps) 1 2 [] []
      (by decide) (by decide) (by decide)).2.1 (by decide)⟩

/-- C7 as stated is false on the code: buckets emptied by a deletion are
retained in the index, so after adding key 1 with first letter 7 and
deleting it again no present entry has a name token starting with letter 7
(the unfiltered list is empty), yet `filtered(7)` returns a non-null
(empty) bucket instead of null. -/
theorem C7_filtered_counterexample :
    (run (IndexedList.init SortMode.Date)
        [Op.addToEnd 1 ⟨[7], 0, false, 0, 0⟩, Op.del 1]).list = [] ∧
      (run (IndexedList.init SortMode.Date)
        [Op.addToEnd 1 ⟨[7], 0, false, 0, 0⟩, Op.del 1]).filtered 7 = some [] := by
  decide

/-- C7 amended: `filtered(ch)` is null iff no bucket for `ch` exists; when
it is null no present entry has a name token with first letter `ch`, and
whenever some present entry has first letter `ch`, `filtered(ch)` returns
the letter bucket, which contains that entry.  (A bucket emptied by
deletions or renames may be retained, so a non-null empty bucket can be
returned although no present entry has the letter.) -/
theorem C7_filtered_amended (m : SortMode) (ops : List Op)
    (hwf : wfTrace (IndexedList.init m) ops = true) (ch : Letter) :
    ((run (IndexedList.init m) ops).filtered ch = none →
      ∀ k ∈ (run (IndexedList.init m) ops).list,
        ch ∉ (run (IndexedList.init m) ops).lettersOf k) ∧
      (∀ k ∈ (run (IndexedList.init m) ops).list,
        ch ∈ (run (IndexedList.init m) ops).lettersOf k →
          (run (IndexedList.init m) ops).filtered ch =
              some ((run (IndexedList.init m) ops).bucketOf ch) ∧
            k ∈ (run (IndexedList.init m) ops).bucketOf ch) := by
  have hM := memInv_run (IndexedList.init m) ops (memInv_init m) hwf
  set s := run (IndexedList.init m) ops with hs
  constructor
  · intro hn k hk hch
    have hb : k ∈ bucketOfI s.index ch := (hM.1 k hk ch).mpr hch
    have hn' : lookupB s.index ch = none := hn
    unfold bucketOfI at hb
    rw [hn'] at hb
    simp at hb
  · intro k hk hch
    have hb : k ∈ bucketOfI s.index ch := (hM.1 k hk ch).mpr hch
    refine ⟨?_, hb⟩
    show lookupB s.index ch = some (bucketOfI s.index ch)
    unfold bucketOfI
    cases hl : lookupB s.index ch with
    | none =>
      unfold bucketOfI at hb
      rw [hl] at hb
      simp at hb
    | some bkt => rfl

/-- Witness for the amended C7: with key 1 present under letter 7,
`filtered(7)` returns the bucket containing it. -/
theorem C7_filtered_amended_witness :
    wfTrace (IndexedList.init SortMode.Date)
        [Op.addToEnd 1 ⟨[7], 0, false, 0, 0⟩] = true ∧
      1 ∈ (run (IndexedList.init SortMode.Date)
        [Op.addToEnd 1 ⟨[7], 0, false, 0, 0⟩]).list ∧
      7 ∈ (run (IndexedList.init SortMode.Date)
        [Op.addToEnd 1 ⟨[7], 0, false, 0, 0⟩]).lettersOf 1 ∧
      (run (IndexedList.init SortMode.Date)
          [Op.addToEnd 1 ⟨[7], 0, false, 0, 0⟩]).filtered 7 =
        some ((run (IndexedList.init SortMode.Date)
          [Op.addToEnd 1 ⟨[7], 0, false, 0, 0⟩]).bucketOf 7) ∧
      1 ∈ (run (IndexedList.init SortMode.Date)
        [Op.addToEnd 1 ⟨[7], 0, false, 0, 0⟩]).bucketOf 7 :=
  ⟨by decide, by decide, by decide,
    ((C7_filtered_amended SortMode.Date [Op.addToEnd 1 ⟨[7], 0, false, 0, 0⟩]
      (by decide) 7).2 1 (by decide) (by decide)).1,
    ((C7_filtered_amended SortMode.Date [Op.addToEnd 1 ⟨[7], 0, false, 0, 0⟩]
      (by decide) 7).2 1 (by decide) (by decide)).2⟩

/-- C8 as stated is false on the code: its parenthetical equivalence
("excludes a type iff performFilter would produce a strict subset") fails;
with predicate 14 (all types except type 0) on a fresh empty list,
`isFilteredByType()` is true although `performFilter` yields exactly the
unfiltered list, not a strict subset. -/
theorem C8_isFilteredByType_counterexample :
    ((IndexedList.init SortMode.Date).setFilterTypes 14).isFilteredByType = true ∧
      (((IndexedList.init SortMode.Date).setFilterTypes 14).performFilter).all =
        ((IndexedList.init SortMode.Date).setFilterTypes 14).list := by
  decide

/-- C8 amended: `isFilteredByType()` is true iff the recorded predicate
excludes at least one entry type, and with the default `All` predicate it
is false.  (Excluding a type need not make `performFilter` produce a strict
subset: the excluded type may have no present entries.) -/
theorem C8_isFilteredByType_amended (s : IndexedList) (m : SortMode) :
    (s.isFilteredByType = true ↔
        ∃ t, t < typeCount ∧ s.filterTypes.testBit t = false) ∧
      (IndexedList.init m).isFilteredByType = false := by
  constructor
  · simp only [IndexedList.isFilteredByType, List.any_eq_true, List.mem_range,
      Bool.not_eq_true']
  · cases m <;> rfl

/-- C9: `unfilteredAll()` returns the unfiltered list, and neither
`setFilterTypes` nor `performFilter` (nor their composition) changes the
unfiltered list's contents or order. -/
theorem C9_unfiltered_frame (s : IndexedList) (t : Nat) :
    s.unfilteredAll = s.list ∧
      (s.setFilterTypes t).list = s.list ∧
      s.performFilter.list = s.list ∧
      ((s.setFilterTypes t).performFilter).list = s.list := by
  refine ⟨rfl, rfl, ?_, ?_⟩
  · unfold IndexedList.performFilter
    split
    · rfl
    · rfl
  · unfold IndexedList.performFilter
    split
    · rfl
    · rfl

/-- C10: a freshly constructed `IndexedList` (either sort mode) has the
default `All` type predicate, no type-filtered view, reports
`isFilteredByType() = false`, and `all()` coincides with the (empty)
`unfilteredAll()`. -/
theorem C10_fresh_state (m : SortMode) :
    (IndexedList.init m).getFilterTypes = allTypes ∧
      (IndexedList.init m).pFiltered = none ∧
      (IndexedList.init m).isFilteredByType = false ∧
      (IndexedList.init m).all = (IndexedList.init m).unfilteredAll ∧
      (IndexedList.init m).all = [] := by
  cases m <;> exact ⟨rfl, rfl, rfl, rfl, rfl⟩

end Dialogs
